import Mathlib

/-!
Verification of the VOSK-modular streaming-upload and transcription-queue
subsystems.  The definitions below are shallow embeddings of the repository's
source code:

* `TsStore` embeds the TypeScript chunk store (`src/lib/storage/files.ts`,
  functions `saveChunk`, `assembleChunks`, `updateChunkManifest`,
  `findMissingChunks`).
* `JsStore` embeds the CommonJS chunk store used by the WebSocket server
  (same four functions, transliterated from that file).
* The session definitions embed the WebSocket handler (`handleComplete` and
  the binary-payload branch of `handleMessage`); filesystem effects are
  represented by explicit state and an event trace.
* The queue definitions embed `src/lib/queue/transcription-queue.ts`
  (`enqueueTranscriptionJob`, `claimNextJob`, `updateJob`, `recoverQueue`,
  `acquireLock`, `withLock`, `startTranscriptionWorker`); clock readings and
  fresh UUIDs are passed as explicit parameters, and the check whether a
  round's transcript artifact exists is a Boolean oracle parameter.
-/

namespace VoskModular

/-- Byte buffers are modelled as lists of byte values. -/
abbrev Bytes := List Nat

/-- Chunk manifest, one per round while streaming (`manifest.json`). -/
structure ChunkManifest where
  roundId : String
  mimeType : String
  totalChunks : Nat
  receivedSequences : List Nat
  startTime : Nat
  lastUpdate : Nat
deriving DecidableEq, Repr

/-- Per-round staging state of the chunk store: the chunk files keyed by
sequence number, and the manifest (both live in the round's chunk dir). -/
structure RoundChunkState where
  chunks : List (Nat × Bytes)
  manifest : Option ChunkManifest
deriving DecidableEq, Repr

/-- The received set of an optional manifest (empty when absent). -/
def receivedOf (m : Option ChunkManifest) : List Nat :=
  match m with
  | none => []
  | some mf => mf.receivedSequences

/-- Overwrite-or-create a chunk file (models `fs.writeFile` on the
sequence-keyed path). -/
def setChunk : List (Nat × Bytes) → Nat → Bytes → List (Nat × Bytes)
  | [], seq, b => [(seq, b)]
  | p :: rest, seq, b =>
    if p.1 = seq then (seq, b) :: rest else p :: setChunk rest seq b

/-- Read a chunk file (models `fs.readFile`; `none` is a read failure). -/
def lookupChunk (chunks : List (Nat × Bytes)) (i : Nat) : Option Bytes :=
  (chunks.find? (fun p => p.1 == i)).map (fun p => p.2)

/-- Splitting a character list on `/`, modelling JavaScript `split('/')`. -/
def splitSlashAux : List Char → List Char → List (List Char)
  | [], acc => [acc.reverse]
  | c :: rest, acc =>
    if c = '/' then acc.reverse :: splitSlashAux rest []
    else splitSlashAux rest (c :: acc)

/-- Extension derived from the mime type: `mimeType.split('/')[1] || 'webm'`
(an absent or empty second part falls back to `webm`). -/
def mimeExtension (mimeType : String) : String :=
  match (splitSlashAux mimeType.toList [])[1]? with
  | none => "webm"
  | some cs => if cs.isEmpty then "webm" else String.mk cs

instance exceptDecEq {ε α : Type} [DecidableEq ε] [DecidableEq α] :
    DecidableEq (Except ε α) := fun a b =>
  match a, b with
  | Except.error e1, Except.error e2 =>
    if h : e1 = e2 then isTrue (by rw [h])
    else isFalse (by intro hc; cases hc; exact h rfl)
  | Except.ok v1, Except.ok v2 =>
    if h : v1 = v2 then isTrue (by rw [h])
    else isFalse (by intro hc; cases hc; exact h rfl)
  | Except.error _, Except.ok _ => isFalse (by intro hc; cases hc)
  | Except.ok _, Except.error _ => isFalse (by intro hc; cases hc)

namespace TsStore

/-- Embeds `updateChunkManifest` of the TypeScript store: create the manifest
if absent, add the sequence to the received set if new (push then ascending
sort), raise `totalChunks` to `max(current, sequence+1)`, touch `lastUpdate`. -/
def updateChunkManifest (rid : String) (seq : Nat) (mime : String) (now : Nat)
    (m : Option ChunkManifest) : ChunkManifest :=
  let mf : ChunkManifest :=
    match m with
    | some mf => mf
    | none =>
      { roundId := rid, mimeType := mime, totalChunks := 0,
        receivedSequences := [], startTime := now, lastUpdate := now }
  let rs :=
    if mf.receivedSequences.contains seq then mf.receivedSequences
    else List.insertionSort (fun a b => a ≤ b) (mf.receivedSequences ++ [seq])
  { mf with receivedSequences := rs, lastUpdate := now,
            totalChunks := max mf.totalChunks (seq + 1) }

/-- Embeds `saveChunk` of the TypeScript store: write the chunk file
(idempotent overwrite), then update the manifest (default mime type). -/
def saveChunk (rid : String) (seq : Nat) (buffer : Bytes) (now : Nat)
    (cs : RoundChunkState) : RoundChunkState :=
  { chunks := setChunk cs.chunks seq buffer,
    manifest := some (updateChunkManifest rid seq "audio/webm" now cs.manifest) }

/-- Embeds the read loop of `assembleChunks`: read the given sequence indices
in order, failing on the first absent chunk with `Missing chunk i`.  The first
component is the trace of indices whose read was attempted. -/
def readChunks (chunks : List (Nat × Bytes)) : List Nat → List Nat × Except String (List Bytes)
  | [] => ([], Except.ok [])
  | i :: rest =>
    match lookupChunk chunks i with
    | none => ([i], Except.error ("Missing chunk " ++ toString i))
    | some b =>
      let r := readChunks chunks rest
      (i :: r.1, r.2.map (fun bs => b :: bs))

/-- Embeds `assembleChunks` of the TypeScript store: read chunks
`0..totalChunks-1` in order, concatenate them into the artifact written at
`/audio/{roundId}.{ext}`, and delete the staging directory (chunk files and
manifest) only in the success case; a failed read propagates the error with
no artifact produced and the staging state untouched. -/
def assembleChunks (rid : String) (totalChunks : Nat) (mime : String)
    (cs : RoundChunkState) : List Nat × Except String (String × Bytes × RoundChunkState) :=
  let r := readChunks cs.chunks (List.range totalChunks)
  match r.2 with
  | Except.error e => (r.1, Except.error e)
  | Except.ok bufs =>
    (r.1, Except.ok ("/audio/" ++ rid ++ "." ++ mimeExtension mime,
                     bufs.flatten,
                     { chunks := [], manifest := none }))

/-- Embeds `findMissingChunks` of the TypeScript store: with no manifest every
index below the expected total is missing; otherwise collect, in ascending
order, the indices below the expected total absent from the received set. -/
def findMissingChunks (m : Option ChunkManifest) (expectedTotal : Nat) : List Nat :=
  match m with
  | none => List.range expectedTotal
  | some mf =>
    (List.range expectedTotal).filter (fun i => !(mf.receivedSequences.contains i))

end TsStore

namespace JsStore

/-- Embeds `updateChunkManifest` of the CommonJS store used by the WebSocket
server (same algorithm as the TypeScript store). -/
def updateChunkManifest (rid : String) (seq : Nat) (mime : String) (now : Nat)
    (m : Option ChunkManifest) : ChunkManifest :=
  let mf : ChunkManifest :=
    match m with
    | some mf => mf
    | none =>
      { roundId := rid, mimeType := mime, totalChunks := 0,
        receivedSequences := [], startTime := now, lastUpdate := now }
  let rs :=
    if mf.receivedSequences.contains seq then mf.receivedSequences
    else List.insertionSort (fun a b => a ≤ b) (mf.receivedSequences ++ [seq])
  { mf with receivedSequences := rs, lastUpdate := now,
            totalChunks := max mf.totalChunks (seq + 1) }

/-- Embeds `saveChunk` of the CommonJS store. -/
def saveChunk (rid : String) (seq : Nat) (buffer : Bytes) (now : Nat)
    (cs : RoundChunkState) : RoundChunkState :=
  { chunks := setChunk cs.chunks seq buffer,
    manifest := some (updateChunkManifest rid seq "audio/webm" now cs.manifest) }

/-- Embeds the read loop of the CommonJS `assembleChunks`. -/
def readChunks (chunks : List (Nat × Bytes)) : List Nat → List Nat × Except String (List Bytes)
  | [] => ([], Except.ok [])
  | i :: rest =>
    match lookupChunk chunks i with
    | none => ([i], Except.error ("Missing chunk " ++ toString i))
    | some b =>
      let r := readChunks chunks rest
      (i :: r.1, r.2.map (fun bs => b :: bs))

/-- Embeds `assembleChunks` of the CommonJS store. -/
def assembleChunks (rid : String) (totalChunks : Nat) (mime : String)
    (cs : RoundChunkState) : List Nat × Except String (String × Bytes × RoundChunkState) :=
  let r := readChunks cs.chunks (List.range totalChunks)
  match r.2 with
  | Except.error e => (r.1, Except.error e)
  | Except.ok bufs =>
    (r.1, Except.ok ("/audio/" ++ rid ++ "." ++ mimeExtension mime,
                     bufs.flatten,
                     { chunks := [], manifest := none }))

/-- Embeds `findMissingChunks` of the CommonJS store. -/
def findMissingChunks (m : Option ChunkManifest) (expectedTotal : Nat) : List Nat :=
  match m with
  | none => List.range expectedTotal
  | some mf =>
    (List.range expectedTotal).filter (fun i => !(mf.receivedSequences.contains i))

end JsStore

/-! ### Round store and streaming session -/

/-- Round lifecycle status (`RoundStatus` enum of the repository). -/
inductive RoundStatus where
  | created
  | recording
  | streaming
  | processing
  | completed
  | error
deriving DecidableEq, Repr

/-- Per-connection session state of the WebSocket handler. -/
structure SessionState where
  sessionId : String
  roundId : Option String
  lastReceivedSequence : Int
  expectedSequence : Int
  totalChunksReceived : Nat
  mimeType : String
  awaitingChunkData : Bool
  pendingChunkSequence : Option Nat
  unexpectedBinaryBuffer : Option Bytes
deriving DecidableEq, Repr

/-- Observable effects emitted by the session handlers, in program order:
round-store writes, frames sent to the client, and the asynchronous
transcription trigger (the HTTP call that performs the queue enqueue). -/
inductive SrvEvent where
  | roundUpdate (roundId : String) (status : RoundStatus) (audioFile : Option String)
  | sendMissing (sequences : List Nat)
  | sendComplete (chunkCount : Nat) (audioPath : String)
  | sendError (code : String)
  | sendAck (sequence : Nat)
  | triggerEnqueue (roundId : String)
deriving DecidableEq, Repr

/-- Round status visible after a list of events has been applied, starting
from the given status (only `roundUpdate` events change it; the session
handles a single round). -/
def statusAfter (init : RoundStatus) (evs : List SrvEvent) : RoundStatus :=
  evs.foldl
    (fun s e =>
      match e with
      | SrvEvent.roundUpdate _ st _ => st
      | _ => s)
    init

/-- Embeds the binary-payload branches of `handleMessage` in the WebSocket
server.  `saveOk` models whether persisting the chunk to disk succeeds.
While awaiting chunk data with a pending sequence: on a successful save the
chunk store is updated, `ack` is sent and the awaiting state is cleared; on a
failed save a typed `CHUNK_SAVE_ERROR` frame is sent and the session state is
left unchanged.  While not awaiting, the payload is buffered in the
single-slot out-of-order buffer, newest wins. -/
def handleBinaryMessage (saveOk : Bool) (now : Nat) (st : SessionState)
    (cs : RoundChunkState) (data : Bytes) :
    SessionState × RoundChunkState × List SrvEvent :=
  if st.awaitingChunkData then
    match st.pendingChunkSequence with
    | none => (st, cs, [])
    | some seq =>
      if saveOk then
        let cs' := JsStore.saveChunk (st.roundId.getD "") seq data now cs
        ({ st with
            totalChunksReceived := st.totalChunksReceived + 1,
            lastReceivedSequence := (seq : Int),
            awaitingChunkData := false,
            pendingChunkSequence := none },
         cs', [SrvEvent.sendAck seq])
      else
        (st, cs, [SrvEvent.sendError "CHUNK_SAVE_ERROR"])
  else
    ({ st with unexpectedBinaryBuffer := some data }, cs, [])

/-- Embeds `handleComplete` of the WebSocket server.  With no round the
session is not initialized; with missing chunks only a `missing` frame is
sent; otherwise the chunks are assembled, the round is set to `processing`
with the artifact path, the `complete` reply is sent, and finally the
asynchronous transcription trigger (which performs the enqueue) is fired.
On assembly failure the round is set to `error` and a typed error is sent. -/
def handleComplete (totalChunks : Nat) (st : SessionState) (cs : RoundChunkState) :
    RoundChunkState × List SrvEvent :=
  match st.roundId with
  | none => (cs, [SrvEvent.sendError "NOT_INITIALIZED"])
  | some rid =>
    let missing := JsStore.findMissingChunks cs.manifest totalChunks
    if 0 < missing.length then
      (cs, [SrvEvent.sendMissing missing])
    else
      match (JsStore.assembleChunks rid totalChunks st.mimeType cs).2 with
      | Except.error _ =>
        (cs, [SrvEvent.roundUpdate rid RoundStatus.error none,
              SrvEvent.sendError "ASSEMBLY_FAILED"])
      | Except.ok (audioPath, _, cs') =>
        (cs', [SrvEvent.roundUpdate rid RoundStatus.processing (some audioPath),
               SrvEvent.sendComplete totalChunks audioPath,
               SrvEvent.triggerEnqueue rid])

/-! ### Transcription queue -/

/-- Job status of the transcription queue. -/
inductive JobStatus where
  | queued
  | processing
  | completed
  | error
deriving DecidableEq, Repr

/-- Job source. -/
inductive Source where
  | recording
  | upload
deriving DecidableEq, Repr

/-- A transcription job as persisted in the queue document. -/
structure TranscriptionJob where
  id : String
  roundId : String
  audioPath : String
  source : Source
  status : JobStatus
  attempts : Nat
  createdAt : Nat
  updatedAt : Nat
  lastError : Option String
deriving DecidableEq, Repr

/-- The queue document. -/
structure QueueState where
  jobs : List TranscriptionJob
deriving DecidableEq, Repr

/-- `MAX_ATTEMPTS` of the queue. -/
def MAX_ATTEMPTS : Nat := 3

/-- `LOCK_TTL_MS` of the queue (10 minutes). -/
def LOCK_TTL_MS : Nat := 10 * 60 * 1000

/-- A job counts as active when queued or processing. -/
def jobActive (j : TranscriptionJob) : Prop :=
  j.status = JobStatus.queued ∨ j.status = JobStatus.processing

instance (j : TranscriptionJob) : Decidable (jobActive j) := by
  unfold jobActive; infer_instance

/-- The fresh job record built by `enqueueTranscriptionJob`: the given UUID,
round, audio path and source, status `queued`, zero attempts, both timestamps
set to the clock reading. -/
def newJobOf (rid apath : String) (src : Source) (newId : String) (now : Nat) :
    TranscriptionJob :=
  { id := newId, roundId := rid, audioPath := apath, source := src,
    status := JobStatus.queued, attempts := 0,
    createdAt := now, updatedAt := now, lastError := none }

/-- Embeds `enqueueTranscriptionJob`: if some job for the round is already
queued or processing, return it with the queue unchanged; otherwise append a
fresh job with status `queued` and zero attempts.  `newId` is the fresh UUID
and `now` the clock reading. -/
def enqueueTranscriptionJob (rid apath : String) (src : Source) (newId : String)
    (now : Nat) (q : QueueState) : TranscriptionJob × QueueState :=
  match q.jobs.find? (fun j => decide (j.roundId = rid ∧ jobActive j)) with
  | some existing => (existing, q)
  | none =>
    (newJobOf rid apath src newId now,
     { jobs := q.jobs ++ [newJobOf rid apath src newId now] })

/-- The in-place mutation `claimNextJob` applies to the selected job: switch
to processing, increment attempts, refresh `updatedAt`. -/
def claimedJob (now : Nat) (j : TranscriptionJob) : TranscriptionJob :=
  { j with status := JobStatus.processing, attempts := j.attempts + 1,
           updatedAt := now }

/-- Loop of `claimNextJob` over the job list: the first queued job with
attempts below the cap is switched to processing with attempts incremented. -/
def claimAux (now : Nat) : List TranscriptionJob → Option TranscriptionJob × List TranscriptionJob
  | [] => (none, [])
  | j :: rest =>
    if j.status = JobStatus.queued ∧ j.attempts < MAX_ATTEMPTS then
      (some (claimedJob now j), claimedJob now j :: rest)
    else
      let r := claimAux now rest
      (r.1, j :: r.2)

/-- Embeds `claimNextJob`. -/
def claimNextJob (now : Nat) (q : QueueState) : Option TranscriptionJob × QueueState :=
  let r := claimAux now q.jobs
  (r.1, { jobs := r.2 })

/-- The partial update passed to `updateJob` at its call sites in the
repository: an optional status and an optional last-error override (the
call sites never touch `attempts` or identity fields). -/
structure JobUpdate where
  status : Option JobStatus
  lastError : Option (Option String)
deriving DecidableEq, Repr

/-- Merge an update into a job and refresh `updatedAt`. -/
def applyUpdate (u : JobUpdate) (now : Nat) (j : TranscriptionJob) : TranscriptionJob :=
  { j with status := u.status.getD j.status,
           lastError := u.lastError.getD j.lastError,
           updatedAt := now }

/-- Loop of `updateJob` over the job list: the first job with the given id is
merged with the update. -/
def updateAux (jobId : String) (u : JobUpdate) (now : Nat) :
    List TranscriptionJob → Option TranscriptionJob × List TranscriptionJob
  | [] => (none, [])
  | j :: rest =>
    if j.id = jobId then
      let j' := applyUpdate u now j
      (some j', j' :: rest)
    else
      let r := updateAux jobId u now rest
      (r.1, j :: r.2)

/-- Embeds `updateJob`. -/
def updateJob (jobId : String) (u : JobUpdate) (now : Nat) (q : QueueState) :
    Option TranscriptionJob × QueueState :=
  let r := updateAux jobId u now q.jobs
  (r.1, { jobs := r.2 })

/-- The rounds store, as an association list from round id to status. -/
abbrev Rounds := List (String × RoundStatus)

/-- Embeds `updateRound` restricted to the status field: set the status of
the first entry with the given id, a no-op when the round is absent. -/
def setRound : Rounds → String → RoundStatus → Rounds
  | [], _, _ => []
  | p :: rest, rid, s =>
    if p.1 = rid then (p.1, s) :: rest else p :: setRound rest rid s

/-- Reconciliation applied by `recoverQueue` to a single job: a `processing`
job becomes `completed` when the round's transcript artifact exists, is
requeued when attempts remain, and becomes `error` otherwise; any other job
is untouched.  `done` is the `transcriptionExists` oracle. -/
def recoverJob (done : String → Bool) (now : Nat) (j : TranscriptionJob) : TranscriptionJob :=
  if j.status = JobStatus.processing then
    if done j.roundId then
      { j with status := JobStatus.completed, updatedAt := now }
    else if j.attempts < MAX_ATTEMPTS then
      { j with status := JobStatus.queued, updatedAt := now }
    else
      { j with status := JobStatus.error, updatedAt := now }
  else j

/-- Embeds the loop of `recoverQueue`: walk the jobs in order, reconciling
each `processing` job and updating the corresponding round to `completed` or
`error` in the completed and exhausted cases. -/
def recoverLoop (done : String → Bool) (now : Nat) :
    List TranscriptionJob → Rounds → List TranscriptionJob × Rounds
  | [], rounds => ([], rounds)
  | j :: rest, rounds =>
    if j.status = JobStatus.processing then
      if done j.roundId then
        let r := recoverLoop done now rest (setRound rounds j.roundId RoundStatus.completed)
        ({ j with status := JobStatus.completed, updatedAt := now } :: r.1, r.2)
      else if j.attempts < MAX_ATTEMPTS then
        let r := recoverLoop done now rest rounds
        ({ j with status := JobStatus.queued, updatedAt := now } :: r.1, r.2)
      else
        let r := recoverLoop done now rest (setRound rounds j.roundId RoundStatus.error)
        ({ j with status := JobStatus.error, updatedAt := now } :: r.1, r.2)
    else
      let r := recoverLoop done now rest rounds
      (j :: r.1, r.2)

/-- Embeds `recoverQueue` on the queue document and rounds store. -/
def recoverQueue (done : String → Bool) (now : Nat) (q : QueueState) (rounds : Rounds) :
    QueueState × Rounds :=
  let r := recoverLoop done now q.jobs rounds
  ({ jobs := r.1 }, r.2)

/-- The queue operations of the repository, with their external inputs made
explicit. -/
inductive QueueOp where
  | enqueueOp (rid apath : String) (src : Source) (newId : String) (now : Nat)
  | claimOp (now : Nat)
  | updateOp (jobId : String) (u : JobUpdate) (now : Nat)
  | recoverOp (done : String → Bool) (now : Nat)

/-- The fresh job id introduced by an operation, when any. -/
def opNewId : QueueOp → Option String
  | QueueOp.enqueueOp _ _ _ newId _ => some newId
  | _ => none

/-- Effect of one queue operation on the queue document. -/
def applyOp : QueueOp → QueueState → QueueState
  | QueueOp.enqueueOp rid apath src newId now, q =>
    (enqueueTranscriptionJob rid apath src newId now q).2
  | QueueOp.claimOp now, q => (claimNextJob now q).2
  | QueueOp.updateOp jobId u now, q => (updateJob jobId u now q).2
  | QueueOp.recoverOp done now, q => (recoverQueue done now q []).1

/-- Effect of a sequence of queue operations, applied left to right. -/
def applyOps (ops : List QueueOp) (q : QueueState) : QueueState :=
  ops.foldl (fun s op => applyOp op s) q

/-! ### Lock file -/

/-- Embeds `acquireLock` on the lock slot (the `startedAt` recorded in the
lock file, `none` when no lock file exists): an empty slot is taken; an
existing lock whose recorded age exceeds the TTL is deleted as abandoned and
acquisition retried on the now-empty slot; a live lock is left in place and
acquisition fails. -/
def acquireLock (now : Nat) (lock : Option Nat) : Bool × Option Nat :=
  match lock with
  | none => (true, some now)
  | some startedAt =>
    if LOCK_TTL_MS < now - startedAt then (true, some now)
    else (false, some startedAt)

/-- Embeds the retry loop of `withLock`: up to 20 acquisition attempts spaced
by the fixed 100 ms delay; `lockAt i` is the lock slot observed at attempt
`i` and `t0` the time of the first attempt.  Returns the index of the
successful attempt, or the timeout error. -/
def withLock (lockAt : Nat → Option Nat) (t0 : Nat) : Except String Nat :=
  match (List.range 20).find? (fun i => (acquireLock (t0 + i * 100) (lockAt i)).1) with
  | some i => Except.ok i
  | none => Except.error "Queue lock timeout."

/-! ### Worker startup -/

/-- Worker trace events: the one-time recovery pass and each claim attempt of
the polling loop. -/
inductive WorkerEvent where
  | recovered
  | claimed (j : TranscriptionJob)
  | idle
deriving DecidableEq, Repr

/-- The polling loop of the worker, for a bounded number of iterations: each
iteration claims the next eligible job, or idles when none is eligible. -/
def workerLoop (now : Nat) : Nat → QueueState → QueueState × List WorkerEvent
  | 0, q => (q, [])
  | n + 1, q =>
    match claimNextJob now q with
    | (none, q') =>
      let r := workerLoop now n q'
      (r.1, WorkerEvent.idle :: r.2)
    | (some j, q') =>
      let r := workerLoop now n q'
      (r.1, WorkerEvent.claimed j :: r.2)

/-- Embeds `startTranscriptionWorker`: a second start is a no-op; a first
start runs recovery once and then enters the polling loop (bounded here by
`n` iterations). -/
def startTranscriptionWorker (started : Bool) (done : String → Bool) (now : Nat)
    (n : Nat) (q : QueueState) (rounds : Rounds) :
    Bool × QueueState × Rounds × List WorkerEvent :=
  if started then (true, q, rounds, [])
  else
    let rec0 := recoverQueue done now q rounds
    let r := workerLoop now n rec0.1
    (true, r.1, rec0.2, WorkerEvent.recovered :: r.2)

/-! ### Chunk-store lemmas -/

/-- Membership in the received set after a manifest update. -/
theorem mem_updateChunkManifest (rid : String) (seq : Nat) (mime : String) (now : Nat)
    (m : Option ChunkManifest) (i : Nat) :
    i ∈ (TsStore.updateChunkManifest rid seq mime now m).receivedSequences ↔
      i = seq ∨ i ∈ receivedOf m := by
  unfold TsStore.updateChunkManifest
  cases m with
  | none =>
    simp only [receivedOf]
    have hmem := (List.perm_insertionSort (fun a b => a ≤ b)
      (([] : List Nat) ++ [seq])).mem_iff (a := i)
    simp only [List.contains, List.nil_append] at *
    simp [hmem]
  | some mf =>
    simp only [receivedOf]
    by_cases hc : mf.receivedSequences.contains seq
    · have hseq : seq ∈ mf.receivedSequences := List.elem_iff.mp hc
      simp only [hc, if_true]
      constructor
      · exact fun h => Or.inr h
      · rintro (rfl | h)
        · exact hseq
        · exact h
    · have hmem := (List.perm_insertionSort (fun a b => a ≤ b)
        (mf.receivedSequences ++ [seq])).mem_iff (a := i)
      rw [if_neg hc, hmem]
      simp [or_comm]

/-- The missing list is exactly the indices below the total absent from the
received set. -/
theorem mem_findMissingChunks (m : Option ChunkManifest) (total x : Nat) :
    x ∈ TsStore.findMissingChunks m total ↔ x < total ∧ x ∉ receivedOf m := by
  cases m with
  | none => simp [TsStore.findMissingChunks, receivedOf, List.mem_range]
  | some mf =>
    simp [TsStore.findMissingChunks, receivedOf, List.mem_filter, List.mem_range,
      List.elem_iff]

/-- The missing list is strictly ascending. -/
theorem pairwise_findMissingChunks (m : Option ChunkManifest) (total : Nat) :
    List.Pairwise (· < ·) (TsStore.findMissingChunks m total) := by
  cases m with
  | none => exact List.pairwise_lt_range total
  | some mf => exact (List.pairwise_lt_range total).sublist (List.filter_sublist _)

/-- Applying `saveChunk` once per delivered sequence, in delivery order. -/
def saveAll (rid : String) (now : Nat) (bs : Nat → Bytes) (order : List Nat)
    (cs : RoundChunkState) : RoundChunkState :=
  order.foldl (fun s i => TsStore.saveChunk rid i (bs i) now s) cs

/-- Every sequence already received or delivered is received after the saves. -/
theorem mem_received_saveAll (rid : String) (now : Nat) (bs : Nat → Bytes)
    (order : List Nat) (cs : RoundChunkState) (i : Nat)
    (h : i ∈ receivedOf cs.manifest ∨ i ∈ order) :
    i ∈ receivedOf (saveAll rid now bs order cs).manifest := by
  induction order generalizing cs with
  | nil =>
    simp only [saveAll, List.foldl_nil]
    rcases h with h | h
    · exact h
    · simp at h
  | cons a rest ih =>
    have hstep : receivedOf (TsStore.saveChunk rid a (bs a) now cs).manifest =
        (TsStore.updateChunkManifest rid a "audio/webm" now cs.manifest).receivedSequences := rfl
    have hnext : saveAll rid now bs (a :: rest) cs =
        saveAll rid now bs rest (TsStore.saveChunk rid a (bs a) now cs) := rfl
    rw [hnext]
    apply ih
    rcases h with h | h
    · exact Or.inl (by rw [hstep]; exact (mem_updateChunkManifest _ _ _ _ _ _).mpr (Or.inr h))
    · rcases List.mem_cons.mp h with rfl | h
      · exact Or.inl (by rw [hstep]; exact (mem_updateChunkManifest _ _ _ _ _ _).mpr (Or.inl rfl))
      · exact Or.inr h

/-- When every chunk in the index list is present, the read loop succeeds and
returns the chunks in index order. -/
theorem readChunks_ok (chunks : List (Nat × Bytes)) (is : List Nat)
    (h : ∀ i ∈ is, lookupChunk chunks i ≠ none) :
    TsStore.readChunks chunks is =
      (is, Except.ok (is.map (fun i => (lookupChunk chunks i).getD []))) := by
  induction is with
  | nil => rfl
  | cons i rest ih =>
    have hi := h i (by simp)
    match hl : lookupChunk chunks i with
    | none => exact absurd hl hi
    | some b =>
      have hrest := ih (fun j hj => h j (by simp [hj]))
      simp [TsStore.readChunks, hl, hrest, Except.map]

/-- A failed read loop stopped at the first absent index. -/
theorem readChunks_error (chunks : List (Nat × Bytes)) (is : List Nat)
    (tr : List Nat) (e : String)
    (h : TsStore.readChunks chunks is = (tr, Except.error e)) :
    ∃ pre j post, is = pre ++ j :: post ∧
      (∀ k ∈ pre, lookupChunk chunks k ≠ none) ∧
      lookupChunk chunks j = none ∧
      e = "Missing chunk " ++ toString j ∧ tr = pre ++ [j] := by
  induction is generalizing tr with
  | nil => simp [TsStore.readChunks] at h
  | cons i rest ih =>
    match hl : lookupChunk chunks i with
    | none =>
      simp [TsStore.readChunks, hl] at h
      exact ⟨[], i, rest, rfl, by simp, hl, h.2.symm, by simp [h.1]⟩
    | some b =>
      rcases hrec : TsStore.readChunks chunks rest with ⟨tr', r2⟩
      simp only [TsStore.readChunks, hl, hrec] at h
      match r2 with
      | Except.ok bs => simp [Except.map] at h
      | Except.error e' =>
        simp only [Except.map, Prod.mk.injEq] at h
        obtain ⟨htr, he⟩ := h
        have he' : e' = e := by
          cases he
          rfl
        obtain ⟨pre, j, post, h1, h2, h3, h4, h5⟩ :=
          ih tr' (by rw [hrec, he'])
        refine ⟨i :: pre, j, post, by simp [h1], ?_, h3, h4, ?_⟩
        · intro k hk
          rcases List.mem_cons.mp hk with rfl | hk
          · simp [hl]
          · exact h2 k hk
        · rw [← htr, h5]
          rfl

/-- The read loop fails when some index in the list is absent. -/
theorem readChunks_error_of_missing (chunks : List (Nat × Bytes)) (is : List Nat)
    (h : ∃ i ∈ is, lookupChunk chunks i = none) :
    ∃ tr e, TsStore.readChunks chunks is = (tr, Except.error e) := by
  induction is with
  | nil => simp at h
  | cons i rest ih =>
    match hl : lookupChunk chunks i with
    | none =>
      exact ⟨[i], "Missing chunk " ++ toString i, by simp [TsStore.readChunks, hl]⟩
    | some b =>
      obtain ⟨j, hj, hjn⟩ := h
      rcases List.mem_cons.mp hj with rfl | hj
      · rw [hl] at hjn; cases hjn
      · obtain ⟨tr, e, htr⟩ := ih ⟨j, hj, hjn⟩
        refine ⟨i :: tr, e, ?_⟩
        simp [TsStore.readChunks, hl, htr, Except.map]

/-- The trace of attempted reads is a sublist of the requested index list. -/
theorem readChunks_trace_sublist (chunks : List (Nat × Bytes)) (is : List Nat) :
    List.Sublist (TsStore.readChunks chunks is).1 is := by
  induction is with
  | nil => simp [TsStore.readChunks]
  | cons i rest ih =>
    match hl : lookupChunk chunks i with
    | none => simp [TsStore.readChunks, hl]
    | some b =>
      simp only [TsStore.readChunks, hl]
      exact List.Sublist.cons₂ i ih

/-- Decomposing `List.range` around a distinguished element. -/
theorem range_decomp (total : Nat) (pre : List Nat) (j : Nat) (post : List Nat)
    (h : List.range total = pre ++ j :: post) :
    j < total ∧ ∀ k, k < j → k ∈ pre := by
  have hlen : total = pre.length + (post.length + 1) := by
    have hl := congrArg List.length h
    simpa [List.length_append] using hl
  have hjlt : pre.length < total := by omega
  have h1 : (List.range total)[pre.length]? = some pre.length :=
    List.getElem?_range hjlt
  have h2 : (pre ++ j :: post)[pre.length]? = some j := by
    rw [List.getElem?_append_right (le_refl pre.length)]
    simp
  rw [h, h2] at h1
  have h1 : j = pre.length := by
    cases h1
    rfl
  have ht := congrArg (List.take pre.length) h
  rw [List.take_range, List.take_left] at ht
  have hmin : min pre.length total = pre.length := min_eq_left (le_of_lt hjlt)
  rw [hmin] at ht
  constructor
  · omega
  · intro k hk
    rw [← ht, List.mem_range]
    omega

/-- Claim C4: `assembleChunks` reads chunks `0..totalChunks-1` in strictly
ascending order; when every chunk in range is present it produces the
artifact at `/audio/{roundId}.{ext}` whose bytes are the concatenation of
the chunks in sequence order, with the staging data cleared in the returned
state; when some chunk in range is absent it fails with the typed error
naming the first absent index and produces no artifact. -/
theorem assemble_correct :
    (∀ (rid : String) (total : Nat) (mime : String) (cs : RoundChunkState),
      (∀ i, i < total → lookupChunk cs.chunks i ≠ none) →
        (TsStore.assembleChunks rid total mime cs).2 =
          Except.ok ("/audio/" ++ rid ++ "." ++ mimeExtension mime,
            ((List.range total).map (fun i => (lookupChunk cs.chunks i).getD [])).flatten,
            { chunks := [], manifest := none }))
    ∧ (∀ (rid : String) (total : Nat) (mime : String) (cs : RoundChunkState),
        (∃ i, i < total ∧ lookupChunk cs.chunks i = none) →
        ∃ e, (TsStore.assembleChunks rid total mime cs).2 = Except.error e)
    ∧ (∀ (rid : String) (total : Nat) (mime : String) (cs : RoundChunkState) (e : String),
        (TsStore.assembleChunks rid total mime cs).2 = Except.error e →
        ∃ j, j < total ∧ lookupChunk cs.chunks j = none ∧
          (∀ k, k < j → lookupChunk cs.chunks k ≠ none) ∧
          e = "Missing chunk " ++ toString j)
    ∧ (∀ (rid : String) (total : Nat) (mime : String) (cs : RoundChunkState),
        List.Pairwise (· < ·) (TsStore.assembleChunks rid total mime cs).1) := by
  refine ⟨?_, ?_, ?_, ?_⟩
  · intro rid total mime cs h
    have hread := readChunks_ok cs.chunks (List.range total)
      (fun i hi => h i (List.mem_range.mp hi))
    simp [TsStore.assembleChunks, hread]
  · intro rid total mime cs h
    obtain ⟨i, hi, hnone⟩ := h
    obtain ⟨tr, e, htr⟩ := readChunks_error_of_missing cs.chunks (List.range total)
      ⟨i, List.mem_range.mpr hi, hnone⟩
    exact ⟨e, by simp [TsStore.assembleChunks, htr]⟩
  · intro rid total mime cs e h
    unfold TsStore.assembleChunks at h
    match hr : TsStore.readChunks cs.chunks (List.range total) with
    | (tr, Except.ok bs) => rw [hr] at h; simp at h
    | (tr, Except.error e') =>
      rw [hr] at h
      simp only at h
      have he : e' = e := by
        cases h
        rfl
      obtain ⟨pre, j, post, h1, h2, h3, h4, _⟩ :=
        readChunks_error cs.chunks (List.range total) tr e (by rw [hr, he])
      obtain ⟨hjlt, hpre⟩ := range_decomp total pre j post h1
      exact ⟨j, hjlt, h3, fun k hk => h2 k (hpre k hk), h4⟩
  · intro rid total mime cs
    have hsub : List.Sublist (TsStore.assembleChunks rid total mime cs).1 (List.range total) := by
      unfold TsStore.assembleChunks
      match hr : TsStore.readChunks cs.chunks (List.range total) with
      | (tr, Except.ok bs) =>
        have := readChunks_trace_sublist cs.chunks (List.range total)
        rw [hr] at this
        simpa [hr] using this
      | (tr, Except.error e') =>
        have := readChunks_trace_sublist cs.chunks (List.range total)
        rw [hr] at this
        simpa [hr] using this
    exact (List.pairwise_lt_range total).sublist hsub

/-- Witness for C4 at a concrete store: chunks `0` and `1` present assemble
to their concatenation; dropping chunk `1` fails with `Missing chunk 1`. -/
theorem assemble_correct_witness :
    (TsStore.assembleChunks "r" 2 "audio/webm"
        { chunks := [(0, [65]), (1, [66])], manifest := none }).2 =
      Except.ok ("/audio/r.webm", [65, 66], { chunks := [], manifest := none }) ∧
    (∃ j, j < 2 ∧
      lookupChunk ([(0, [65])] : List (Nat × Bytes)) j = none ∧
      (∀ k, k < j → lookupChunk ([(0, [65])] : List (Nat × Bytes)) k ≠ none) ∧
      "Missing chunk 1" = "Missing chunk " ++ toString j) := by
  constructor
  · have h := assemble_correct.1 "r" 2 "audio/webm"
      { chunks := [(0, [65]), (1, [66])], manifest := none } (by decide)
    rw [h]
    decide
  · exact assemble_correct.2.2.1 "r" 2 "audio/webm"
      { chunks := [(0, [65])], manifest := none } "Missing chunk 1" (by decide)

/-- Claim C5: after `saveChunk` has been applied for every sequence below `n`
in any delivery order (duplicates allowed), `findMissingChunks` is empty; in
general it returns exactly the integers below the expected total absent from
the received set, in ascending order. -/
theorem findMissing_correct :
    (∀ (rid : String) (now : Nat) (bs : Nat → Bytes) (order : List Nat) (n : Nat)
        (cs : RoundChunkState),
      (∀ i, i < n → i ∈ order) →
      TsStore.findMissingChunks (saveAll rid now bs order cs).manifest n = [])
    ∧ (∀ (m : Option ChunkManifest) (total x : Nat),
        x ∈ TsStore.findMissingChunks m total ↔ x < total ∧ x ∉ receivedOf m)
    ∧ (∀ (m : Option ChunkManifest) (total : Nat),
        List.Pairwise (· < ·) (TsStore.findMissingChunks m total)) := by
  refine ⟨?_, mem_findMissingChunks, pairwise_findMissingChunks⟩
  intro rid now bs order n cs h
  rw [List.eq_nil_iff_forall_not_mem]
  intro x hx
  rw [mem_findMissingChunks] at hx
  exact hx.2 (mem_received_saveAll rid now bs order cs x (Or.inr (h x hx.1)))

/-- Witness for C5: delivering sequences `0..2` in the order `2, 0, 1, 0`
leaves no missing chunk. -/
theorem findMissing_correct_witness :
    TsStore.findMissingChunks
      (saveAll "r" 7 (fun _ => [1]) [2, 0, 1, 0]
        { chunks := [], manifest := none }).manifest 3 = [] ∧
    (2 ∈ TsStore.findMissingChunks
      (some { roundId := "r", mimeType := "audio/webm", totalChunks := 3,
              receivedSequences := [0, 1], startTime := 0, lastUpdate := 0 }) 3 ↔
      2 < 3 ∧ 2 ∉ receivedOf
        (some { roundId := "r", mimeType := "audio/webm", totalChunks := 3,
                receivedSequences := [0, 1], startTime := 0, lastUpdate := 0 })) := by
  constructor
  · exact findMissing_correct.1 "r" 7 (fun _ => [1]) [2, 0, 1, 0]
      3 { chunks := [], manifest := none } (by decide)
  · exact findMissing_correct.2.1 _ 3 2

/-- Claim C10: the CommonJS chunk store used by the WebSocket server and the
TypeScript chunk store used by the API routes compute identical manifests,
missing lists and artifacts on every input. -/
theorem stores_equivalent :
    (∀ (rid : String) (seq : Nat) (buffer : Bytes) (now : Nat) (cs : RoundChunkState),
      JsStore.saveChunk rid seq buffer now cs = TsStore.saveChunk rid seq buffer now cs)
    ∧ (∀ (rid : String) (seq : Nat) (mime : String) (now : Nat) (m : Option ChunkManifest),
      JsStore.updateChunkManifest rid seq mime now m =
        TsStore.updateChunkManifest rid seq mime now m)
    ∧ (∀ (m : Option ChunkManifest) (total : Nat),
      JsStore.findMissingChunks m total = TsStore.findMissingChunks m total)
    ∧ (∀ (rid : String) (total : Nat) (mime : String) (cs : RoundChunkState),
      JsStore.assembleChunks rid total mime cs = TsStore.assembleChunks rid total mime cs) := by
  have hread : ∀ (chunks : List (Nat × Bytes)) (is : List Nat),
      JsStore.readChunks chunks is = TsStore.readChunks chunks is := by
    intro chunks is
    induction is with
    | nil => rfl
    | cons i rest ih =>
      simp only [JsStore.readChunks, TsStore.readChunks, ih]
  exact ⟨fun _ _ _ _ _ => rfl, fun _ _ _ _ _ => rfl, fun _ _ => rfl,
    fun rid total mime cs => by
      simp only [JsStore.assembleChunks, TsStore.assembleChunks, hread]⟩

/-! ### Session theorems (C1, C3) -/

/-- The statement of claim C1's atomicity clause: on a completion with no
missing chunks, the round is never visible in any status other than
`streaming` on a trace prefix that does not yet contain the enqueue
trigger. -/
def c1ClaimStatement : Prop :=
  ∀ (st : SessionState) (cs : RoundChunkState) (rid : String) (totalChunks : Nat),
    st.roundId = some rid →
    JsStore.findMissingChunks cs.manifest totalChunks = [] →
    ∀ k, SrvEvent.triggerEnqueue rid ∉ (handleComplete totalChunks st cs).2.take k →
      statusAfter RoundStatus.streaming ((handleComplete totalChunks st cs).2.take k) =
        RoundStatus.streaming

/-- A session that has received the single chunk of a one-chunk round. -/
def c1St : SessionState :=
  { sessionId := "s", roundId := some "r", lastReceivedSequence := 0,
    expectedSequence := 1, totalChunksReceived := 1, mimeType := "audio/webm",
    awaitingChunkData := false, pendingChunkSequence := none,
    unexpectedBinaryBuffer := none }

/-- The matching chunk store: chunk `0` staged and recorded in the manifest. -/
def c1Cs : RoundChunkState :=
  { chunks := [(0, [65])],
    manifest := some { roundId := "r", mimeType := "audio/webm", totalChunks := 1,
                       receivedSequences := [0], startTime := 0, lastUpdate := 0 } }

/-- Counterexample to claim C1: completing a fully received one-chunk round
yields a trace whose first event already sets the round to `processing`,
before the enqueue trigger has occurred, so the round is visible in a
non-`streaming` status before the enqueue has succeeded. -/
theorem c1_counterexample : ¬ c1ClaimStatement := by
  intro h
  have hc := h c1St c1Cs "r" 1 rfl (by decide) 1 (by decide)
  exact absurd hc (by decide)

/-- Claim C1 (amended): on a `complete` frame with no missing chunks and a
successful assembly, the session emits, in this order: the round update to
`processing` carrying the artifact path, the `complete{chunkCount, audioPath}`
reply, and only then the asynchronous enqueue trigger; the staging state is
the one cleared by assembly.  The round is thus visible as `processing` after
assembly succeeds but before the enqueue runs. -/
theorem handleComplete_trace (st : SessionState) (cs : RoundChunkState) (rid : String)
    (totalChunks : Nat) (path : String) (bytes : Bytes) (cs' : RoundChunkState)
    (hrid : st.roundId = some rid)
    (hmiss : JsStore.findMissingChunks cs.manifest totalChunks = [])
    (hasm : (JsStore.assembleChunks rid totalChunks st.mimeType cs).2 =
      Except.ok (path, bytes, cs')) :
    handleComplete totalChunks st cs =
      (cs', [SrvEvent.roundUpdate rid RoundStatus.processing (some path),
             SrvEvent.sendComplete totalChunks path,
             SrvEvent.triggerEnqueue rid]) := by
  simp only [handleComplete, hrid, hmiss, hasm, List.length_nil, lt_irrefl, if_false]

/-- Witness for the amended C1 at the concrete one-chunk round. -/
theorem c1_witness :
    handleComplete 1 c1St c1Cs =
      ({ chunks := [], manifest := none },
       [SrvEvent.roundUpdate "r" RoundStatus.processing (some "/audio/r.webm"),
        SrvEvent.sendComplete 1 "/audio/r.webm",
        SrvEvent.triggerEnqueue "r"]) :=
  handleComplete_trace c1St c1Cs "r" 1 "/audio/r.webm" [65]
    { chunks := [], manifest := none } rfl (by decide) (by decide)

/-- The statement of claim C3: a failed chunk save replies a typed error and
clears the awaiting state. -/
def c3ClaimStatement : Prop :=
  ∀ (st : SessionState) (cs : RoundChunkState) (data : Bytes) (now seq : Nat),
    st.awaitingChunkData = true →
    st.pendingChunkSequence = some seq →
    SrvEvent.sendError "CHUNK_SAVE_ERROR" ∈ (handleBinaryMessage false now st cs data).2.2 ∧
    (handleBinaryMessage false now st cs data).1.awaitingChunkData = false ∧
    (handleBinaryMessage false now st cs data).1.pendingChunkSequence = none

/-- A session awaiting the binary payload of sequence `0`. -/
def c3St : SessionState :=
  { sessionId := "s", roundId := some "r", lastReceivedSequence := -1,
    expectedSequence := 1, totalChunksReceived := 0, mimeType := "audio/webm",
    awaitingChunkData := true, pendingChunkSequence := some 0,
    unexpectedBinaryBuffer := none }

/-- Counterexample to claim C3: when the save fails, the handler leaves
`awaitingChunkData` set to `true` instead of clearing it. -/
theorem c3_counterexample : ¬ c3ClaimStatement := by
  intro h
  have hc := h c3St { chunks := [], manifest := none } [65] 0 0 rfl rfl
  exact absurd hc.2.1 (by decide)

/-- Claim C3 (amended): when persisting the binary payload fails, the server
replies the typed `CHUNK_SAVE_ERROR` frame and leaves the session and chunk
store entirely unchanged — in particular `awaitingChunkData` remains `true`
and `pendingChunkSequence` keeps the pending sequence, so the client can
retry by resending the payload for that same sequence. -/
theorem chunkSaveFailure_keeps_awaiting (st : SessionState) (cs : RoundChunkState)
    (data : Bytes) (now seq : Nat)
    (hawait : st.awaitingChunkData = true)
    (hpend : st.pendingChunkSequence = some seq) :
    handleBinaryMessage false now st cs data =
      (st, cs, [SrvEvent.sendError "CHUNK_SAVE_ERROR"]) := by
  simp only [handleBinaryMessage, hawait, hpend, if_true]
  simp

/-- Witness for the amended C3 at a concrete awaiting session. -/
theorem c3_witness :
    handleBinaryMessage false 0 c3St { chunks := [], manifest := none } [65] =
      (c3St, { chunks := [], manifest := none },
       [SrvEvent.sendError "CHUNK_SAVE_ERROR"]) :=
  chunkSaveFailure_keeps_awaiting c3St { chunks := [], manifest := none } [65] 0 0 rfl rfl

/-! ### Queue lemmas -/

/-- Number of active jobs for a round in a job list (the filter is the exact
predicate used by `enqueueTranscriptionJob`). -/
def countActive (rid : String) (l : List TranscriptionJob) : Nat :=
  (l.filter (fun j => decide (j.roundId = rid ∧ jobActive j))).length

/-- The at-most-one-active-job-per-round invariant of the queue document. -/
def atMostOneActive (q : QueueState) : Prop :=
  ∀ rid : String, countActive rid q.jobs ≤ 1

/-- All job attempts bounded by the cap. -/
def attemptsBounded (q : QueueState) : Prop :=
  ∀ j ∈ q.jobs, j.attempts ≤ MAX_ATTEMPTS

/-- The round updates performed by a recovery pass, in job order. -/
def recoverRoundUpdates (done : String → Bool) (l : List TranscriptionJob) :
    List (String × RoundStatus) :=
  l.filterMap (fun j =>
    if j.status = JobStatus.processing then
      if done j.roundId then some (j.roundId, RoundStatus.completed)
      else if j.attempts < MAX_ATTEMPTS then none
      else some (j.roundId, RoundStatus.error)
    else none)

/-- The recovery loop reconciles every job by `recoverJob`, in place. -/
theorem recoverLoop_jobs (done : String → Bool) (now : Nat)
    (l : List TranscriptionJob) (rounds : Rounds) :
    (recoverLoop done now l rounds).1 = l.map (recoverJob done now) := by
  induction l generalizing rounds with
  | nil => rfl
  | cons j rest ih =>
    by_cases hp : j.status = JobStatus.processing
    · by_cases hd : done j.roundId
      · simp [recoverLoop, recoverJob, hp, hd, ih]
      · by_cases ha : j.attempts < MAX_ATTEMPTS
        · simp [recoverLoop, recoverJob, hp, hd, ha, ih]
        · simp [recoverLoop, recoverJob, hp, hd, ha, ih]
    · simp [recoverLoop, recoverJob, hp, ih]

/-- The recovery loop applies exactly the per-job round updates, in order. -/
theorem recoverLoop_rounds (done : String → Bool) (now : Nat)
    (l : List TranscriptionJob) (rounds : Rounds) :
    (recoverLoop done now l rounds).2 =
      (recoverRoundUpdates done l).foldl (fun r p => setRound r p.1 p.2) rounds := by
  induction l generalizing rounds with
  | nil => rfl
  | cons j rest ih =>
    by_cases hp : j.status = JobStatus.processing
    · by_cases hd : done j.roundId
      · simp [recoverLoop, recoverRoundUpdates, hp, hd, ih]
      · by_cases ha : j.attempts < MAX_ATTEMPTS
        · simp [recoverLoop, recoverRoundUpdates, hp, hd, ha, ih]
        · simp [recoverLoop, recoverRoundUpdates, hp, hd, ha, ih]
    · simp [recoverLoop, recoverRoundUpdates, hp, ih]

/-- `recoverJob` never changes a job's attempts, id or round. -/
theorem recoverJob_preserves (done : String → Bool) (now : Nat) (j : TranscriptionJob) :
    (recoverJob done now j).attempts = j.attempts ∧
    (recoverJob done now j).id = j.id ∧
    (recoverJob done now j).roundId = j.roundId := by
  unfold recoverJob
  split_ifs <;> simp

/-- `applyUpdate` never changes a job's attempts, id or round. -/
theorem applyUpdate_preserves (u : JobUpdate) (now : Nat) (j : TranscriptionJob) :
    (applyUpdate u now j).attempts = j.attempts ∧
    (applyUpdate u now j).id = j.id ∧
    (applyUpdate u now j).roundId = j.roundId := by
  simp [applyUpdate]

/-- Characterization of a successful claim: the queue splits around the first
eligible job, which is returned switched to processing with one more attempt. -/
theorem claimAux_some (now : Nat) (l : List TranscriptionJob) (j' : TranscriptionJob)
    (h : (claimAux now l).1 = some j') :
    ∃ pre j post, l = pre ++ j :: post ∧
      (∀ k ∈ pre, ¬(k.status = JobStatus.queued ∧ k.attempts < MAX_ATTEMPTS)) ∧
      j.status = JobStatus.queued ∧ j.attempts < MAX_ATTEMPTS ∧
      j' = claimedJob now j ∧
      (claimAux now l).2 = pre ++ j' :: post := by
  induction l with
  | nil => simp [claimAux] at h
  | cons j rest ih =>
    by_cases hc : j.status = JobStatus.queued ∧ j.attempts < MAX_ATTEMPTS
    · simp only [claimAux, if_pos hc] at h ⊢
      refine ⟨[], j, rest, rfl, by simp, hc.1, hc.2, ?_, ?_⟩
      · cases h
        rfl
      · cases h
        rfl
    · simp only [claimAux, if_neg hc] at h ⊢
      obtain ⟨pre, jj, post, h1, h2, h3, h4, h5, h6⟩ := ih h
      refine ⟨j :: pre, jj, post, by simp [h1], ?_, h3, h4, h5, by simp [h6]⟩
      intro k hk
      rcases List.mem_cons.mp hk with rfl | hk
      · exact hc
      · exact h2 k hk

/-- A claim returns nothing exactly when no job is eligible. -/
theorem claimAux_none (now : Nat) (l : List TranscriptionJob) :
    (claimAux now l).1 = none ↔
      ∀ j ∈ l, ¬(j.status = JobStatus.queued ∧ j.attempts < MAX_ATTEMPTS) := by
  induction l with
  | nil => simp [claimAux]
  | cons j rest ih =>
    by_cases hc : j.status = JobStatus.queued ∧ j.attempts < MAX_ATTEMPTS
    · simp [claimAux, if_pos hc, hc]
    · simp only [claimAux, if_neg hc]
      constructor
      · intro h k hk
        rcases List.mem_cons.mp hk with rfl | hk
        · exact hc
        · exact (ih.mp h) k hk
      · intro h
        exact ih.mpr (fun k hk => h k (List.mem_cons_of_mem _ hk))

/-- A claim that returns nothing leaves the job list unchanged. -/
theorem claimAux_none_eq (now : Nat) (l : List TranscriptionJob)
    (h : (claimAux now l).1 = none) : (claimAux now l).2 = l := by
  induction l with
  | nil => rfl
  | cons j rest ih =>
    by_cases hc : j.status = JobStatus.queued ∧ j.attempts < MAX_ATTEMPTS
    · simp [claimAux, if_pos hc] at h
    · simp only [claimAux, if_neg hc] at h ⊢
      rw [ih h]

/-- Membership after a claim: each job is either untouched or the claimed
one. -/
theorem mem_claimAux (now : Nat) (l : List TranscriptionJob) :
    ∀ x ∈ (claimAux now l).2, x ∈ l ∨
      ∃ j ∈ l, j.status = JobStatus.queued ∧ j.attempts < MAX_ATTEMPTS ∧
        x = claimedJob now j := by
  induction l with
  | nil => simp [claimAux]
  | cons j rest ih =>
    intro x hx
    by_cases hc : j.status = JobStatus.queued ∧ j.attempts < MAX_ATTEMPTS
    · simp only [claimAux, if_pos hc] at hx
      rcases List.mem_cons.mp hx with rfl | hx
      · exact Or.inr ⟨j, by simp, hc.1, hc.2, rfl⟩
      · exact Or.inl (by simp [hx])
    · simp only [claimAux, if_neg hc] at hx
      rcases List.mem_cons.mp hx with rfl | hx
      · exact Or.inl (by simp)
      · rcases ih x hx with h | ⟨jj, hjj, h1, h2, h3⟩
        · exact Or.inl (by simp [h])
        · exact Or.inr ⟨jj, by simp [hjj], h1, h2, h3⟩

/-- Membership after an update: each job is either untouched or the merged
one. -/
theorem mem_updateAux (jobId : String) (u : JobUpdate) (now : Nat)
    (l : List TranscriptionJob) :
    ∀ x ∈ (updateAux jobId u now l).2, x ∈ l ∨ ∃ j ∈ l, x = applyUpdate u now j := by
  induction l with
  | nil => simp [updateAux]
  | cons j rest ih =>
    intro x hx
    by_cases hid : j.id = jobId
    · simp only [updateAux, if_pos hid] at hx
      rcases List.mem_cons.mp hx with rfl | hx
      · exact Or.inr ⟨j, by simp, rfl⟩
      · exact Or.inl (by simp [hx])
    · simp only [updateAux, if_neg hid] at hx
      rcases List.mem_cons.mp hx with rfl | hx
      · exact Or.inl (by simp)
      · rcases ih x hx with h | ⟨jj, hjj, h1⟩
        · exact Or.inl (by simp [h])
        · exact Or.inr ⟨jj, by simp [hjj], h1⟩

/-- A claim pass preserves the number of active jobs of every round. -/
theorem countActive_claimAux (rid : String) (now : Nat) (l : List TranscriptionJob) :
    countActive rid (claimAux now l).2 = countActive rid l := by
  induction l with
  | nil => rfl
  | cons j rest ih =>
    by_cases hc : j.status = JobStatus.queued ∧ j.attempts < MAX_ATTEMPTS
    · have heq : decide ((claimedJob now j).roundId = rid ∧ jobActive (claimedJob now j)) =
          decide (j.roundId = rid ∧ jobActive j) := by
        simp [claimedJob, jobActive, hc.1]
      simp only [countActive, claimAux, if_pos hc, List.filter_cons, heq]
      split_ifs <;> simp
    · simp only [countActive, claimAux, if_neg hc, List.filter_cons]
      simp only [countActive] at ih
      split_ifs
      · simp only [List.length_cons]
        omega
      · exact ih

/-- An update pass with a terminal (or absent) status never increases the
number of active jobs of any round. -/
theorem countActive_updateAux (rid jobId : String) (u : JobUpdate) (now : Nat)
    (hu : u.status = none ∨ u.status = some JobStatus.completed ∨
      u.status = some JobStatus.error)
    (l : List TranscriptionJob) :
    countActive rid (updateAux jobId u now l).2 ≤ countActive rid l := by
  induction l with
  | nil => exact Nat.le_refl _
  | cons j rest ih =>
    by_cases hid : j.id = jobId
    · rcases hu with h | h | h
      · have heq : decide ((applyUpdate u now j).roundId = rid ∧
            jobActive (applyUpdate u now j)) = decide (j.roundId = rid ∧ jobActive j) := by
          simp [applyUpdate, jobActive, h]
        simp only [countActive, updateAux, if_pos hid, List.filter_cons, heq]
        split_ifs <;> simp
      · have hpred : decide ((applyUpdate u now j).roundId = rid ∧
            jobActive (applyUpdate u now j)) = false := by
          simp [applyUpdate, jobActive, h]
        simp only [countActive, updateAux, if_pos hid, List.filter_cons, hpred,
          Bool.false_eq_true, if_false]
        split_ifs
        · simp only [List.length_cons]
          omega
        · exact Nat.le_refl _
      · have hpred : decide ((applyUpdate u now j).roundId = rid ∧
            jobActive (applyUpdate u now j)) = false := by
          simp [applyUpdate, jobActive, h]
        simp only [countActive, updateAux, if_pos hid, List.filter_cons, hpred,
          Bool.false_eq_true, if_false]
        split_ifs
        · simp only [List.length_cons]
          omega
        · exact Nat.le_refl _
    · simp only [countActive, updateAux, if_neg hid, List.filter_cons]
      simp only [countActive] at ih
      split_ifs
      · simp only [List.length_cons]
        omega
      · exact ih

/-- Reconciliation turns active jobs only into active-or-terminal jobs, so a
recovery pass never increases the number of active jobs of any round. -/
theorem countActive_recover (rid : String) (done : String → Bool) (now : Nat)
    (l : List TranscriptionJob) :
    countActive rid (l.map (recoverJob done now)) ≤ countActive rid l := by
  induction l with
  | nil => exact Nat.le_refl _
  | cons j rest ih =>
    simp only [countActive, List.map_cons, List.filter_cons]
    have himp : decide ((recoverJob done now j).roundId = rid ∧
        jobActive (recoverJob done now j)) = true →
        decide (j.roundId = rid ∧ jobActive j) = true := by
      intro h
      rw [decide_eq_true_eq] at h ⊢
      unfold recoverJob at h
      split_ifs at h with h1 h2 h3
      · simp [jobActive] at h
      · exact ⟨h.1, Or.inr h1⟩
      · simp [jobActive] at h
      · exact h
    by_cases hp : decide ((recoverJob done now j).roundId = rid ∧
        jobActive (recoverJob done now j)) = true
    · rw [if_pos hp, if_pos (himp hp)]
      simpa [countActive] using ih
    · rw [if_neg hp]
      split_ifs with hq
      · exact le_trans ih (by simp [countActive])
      · exact ih

/-- Preservation of the "every job with this id is at the cap" property by
one queue operation whose fresh id (if any) differs. -/
theorem capped_preserved (jid : String) (op : QueueOp) (q : QueueState)
    (hq : ∀ j ∈ q.jobs, j.id = jid → MAX_ATTEMPTS ≤ j.attempts)
    (hfresh : opNewId op ≠ some jid) :
    ∀ j ∈ (applyOp op q).jobs, j.id = jid → MAX_ATTEMPTS ≤ j.attempts := by
  cases op with
  | enqueueOp rid apath src newId now =>
    intro j hj hid
    simp only [applyOp, enqueueTranscriptionJob] at hj
    match hfind : q.jobs.find? (fun j => decide (j.roundId = rid ∧ jobActive j)) with
    | some e =>
      rw [hfind] at hj
      exact hq j hj hid
    | none =>
      rw [hfind] at hj
      simp only [List.mem_append, List.mem_singleton] at hj
      rcases hj with hj | hj
      · exact hq j hj hid
      · exfalso
        apply hfresh
        simp only [opNewId, Option.some.injEq]
        rw [← hid, hj]
        rfl
  | claimOp now =>
    intro j hj hid
    rcases mem_claimAux now q.jobs j hj with h | ⟨jj, hjj, _, _, h3⟩
    · exact hq j h hid
    · subst h3
      simp only [claimedJob] at hid ⊢
      have := hq jj hjj hid
      omega
  | updateOp jobId u now =>
    intro j hj hid
    rcases mem_updateAux jobId u now q.jobs j hj with h | ⟨jj, hjj, h1⟩
    · exact hq j h hid
    · subst h1
      rw [(applyUpdate_preserves u now jj).1]
      exact hq jj hjj (by rw [← hid, (applyUpdate_preserves u now jj).2.1])
  | recoverOp done now =>
    intro j hj hid
    simp only [applyOp, recoverQueue, recoverLoop_jobs, List.mem_map] at hj
    obtain ⟨jj, hjj, h1⟩ := hj
    subst h1
    rw [(recoverJob_preserves done now jj).1]
    exact hq jj hjj (by rw [← hid, (recoverJob_preserves done now jj).2.1])

/-- Preservation of the cap property by any operation sequence with fresh
ids. -/
theorem capped_ops (jid : String) (ops : List QueueOp) (q : QueueState)
    (hq : ∀ j ∈ q.jobs, j.id = jid → MAX_ATTEMPTS ≤ j.attempts)
    (hfresh : ∀ op ∈ ops, opNewId op ≠ some jid) :
    ∀ j ∈ (applyOps ops q).jobs, j.id = jid → MAX_ATTEMPTS ≤ j.attempts := by
  induction ops generalizing q with
  | nil => simpa [applyOps] using hq
  | cons op rest ih =>
    simp only [applyOps, List.foldl_cons]
    exact ih (applyOp op q)
      (capped_preserved jid op q hq (hfresh op (by simp)))
      (fun o ho => hfresh o (by simp [ho]))

/-- A filtered singleton has at most one element. -/
theorem filter_singleton_length_le {α : Type} (p : α → Bool) (a : α) :
    (List.filter p [a]).length ≤ 1 := by
  cases hp : p a <;> simp [List.filter, hp]

/-- A filtered singleton whose element fails the predicate is empty. -/
theorem filter_singleton_not {α : Type} (p : α → Bool) (a : α) (h : p a = false) :
    List.filter p [a] = [] := by
  simp [List.filter, h]

/-! ### Queue claim theorems -/

/-- Claim C2: `enqueueTranscriptionJob` is idempotent on an active job for
the round (returns it with the queue document unchanged), otherwise appends
exactly one fresh job with status `queued` and zero attempts; and enqueue,
claim, job update (with the terminal statuses actually used at the
repository's call sites), and recovery all preserve the invariant that at
most one job per round is queued or processing. -/
theorem enqueue_correct :
    (∀ (rid apath : String) (src : Source) (newId : String) (now : Nat)
        (q : QueueState) (e : TranscriptionJob),
      q.jobs.find? (fun j => decide (j.roundId = rid ∧ jobActive j)) = some e →
      enqueueTranscriptionJob rid apath src newId now q = (e, q) ∧
        e ∈ q.jobs ∧ e.roundId = rid ∧ jobActive e)
    ∧ (∀ (rid apath : String) (src : Source) (newId : String) (now : Nat)
        (q : QueueState),
      (∀ j ∈ q.jobs, ¬(j.roundId = rid ∧ jobActive j)) →
      enqueueTranscriptionJob rid apath src newId now q =
        (newJobOf rid apath src newId now,
         { jobs := q.jobs ++ [newJobOf rid apath src newId now] }) ∧
      (newJobOf rid apath src newId now).status = JobStatus.queued ∧
      (newJobOf rid apath src newId now).attempts = 0)
    ∧ (∀ (rid apath : String) (src : Source) (newId : String) (now : Nat)
        (q : QueueState), atMostOneActive q →
        atMostOneActive (enqueueTranscriptionJob rid apath src newId now q).2)
    ∧ (∀ (now : Nat) (q : QueueState), atMostOneActive q →
        atMostOneActive (claimNextJob now q).2)
    ∧ (∀ (jobId : String) (u : JobUpdate) (now : Nat) (q : QueueState),
        (u.status = none ∨ u.status = some JobStatus.completed ∨
          u.status = some JobStatus.error) →
        atMostOneActive q → atMostOneActive (updateJob jobId u now q).2)
    ∧ (∀ (done : String → Bool) (now : Nat) (q : QueueState) (rounds : Rounds),
        atMostOneActive q → atMostOneActive (recoverQueue done now q rounds).1) := by
  refine ⟨?_, ?_, ?_, ?_, ?_, ?_⟩
  · intro rid apath src newId now q e hfind
    have hp := List.find?_some hfind
    rw [decide_eq_true_eq] at hp
    refine ⟨?_, List.mem_of_find?_eq_some hfind, hp.1, hp.2⟩
    simp only [enqueueTranscriptionJob, hfind]
  · intro rid apath src newId now q h
    have hfind : q.jobs.find? (fun j => decide (j.roundId = rid ∧ jobActive j)) = none :=
      List.find?_eq_none.mpr (fun j hj => by simpa using h j hj)
    refine ⟨?_, rfl, rfl⟩
    simp only [enqueueTranscriptionJob, hfind]
  · intro rid apath src newId now q hq rid'
    match hfind : q.jobs.find? (fun j => decide (j.roundId = rid ∧ jobActive j)) with
    | some e =>
      simp only [enqueueTranscriptionJob, hfind]
      exact hq rid'
    | none =>
      simp only [enqueueTranscriptionJob, hfind]
      have hq' := hq rid'
      unfold countActive at hq' ⊢
      rw [List.filter_append, List.length_append]
      by_cases hr : rid = rid'
      · subst hr
        have hnil : (q.jobs.filter
            (fun j => decide (j.roundId = rid ∧ jobActive j))).length = 0 := by
          rw [List.filter_eq_nil_iff.mpr (fun j hj => by
            rw [List.find?_eq_none] at hfind
            simpa using hfind j hj)]
          rfl
        rw [hnil, Nat.zero_add]
        exact filter_singleton_length_le _ _
      · have hz : (fun j => decide (j.roundId = rid' ∧ jobActive j))
            (newJobOf rid apath src newId now) = false := by
          simp [newJobOf, hr]
        rw [filter_singleton_not (fun j => decide (j.roundId = rid' ∧ jobActive j))
          (newJobOf rid apath src newId now) hz, List.length_nil]
        omega
  · intro now q hq rid
    have := countActive_claimAux rid now q.jobs
    simp only [claimNextJob]
    rw [this]
    exact hq rid
  · intro jobId u now q hu hq rid
    have := countActive_updateAux rid jobId u now hu q.jobs
    simp only [updateJob]
    exact le_trans this (hq rid)
  · intro done now q rounds hq rid
    simp only [recoverQueue, recoverLoop_jobs]
    exact le_trans (countActive_recover rid done now q.jobs) (hq rid)

/-- Concrete job builder used in witnesses. -/
def mkJob (jid rid : String) (st : JobStatus) (att : Nat) : TranscriptionJob :=
  { id := jid, roundId := rid, audioPath := "/a", source := Source.recording,
    status := st, attempts := att, createdAt := 0, updatedAt := 0,
    lastError := none }

/-- Witness for C2: enqueuing on a round with an active job returns that job
and leaves the queue untouched; enqueuing on an empty queue preserves the
invariant. -/
theorem c2_witness :
    enqueueTranscriptionJob "r" "/p" Source.recording "n" 9
        { jobs := [mkJob "a" "r" JobStatus.queued 1] } =
      (mkJob "a" "r" JobStatus.queued 1,
       { jobs := [mkJob "a" "r" JobStatus.queued 1] }) ∧
    atMostOneActive (enqueueTranscriptionJob "r" "/p" Source.recording "n" 9
      { jobs := [] }).2 := by
  constructor
  · exact (enqueue_correct.1 "r" "/p" Source.recording "n" 9 _ _ (by decide)).1
  · apply enqueue_correct.2.2.1 "r" "/p" Source.recording "n" 9 { jobs := [] }
    intro rid
    simp [countActive]

/-- Claim C6: recovery reconciles exactly the `processing` jobs: completed
when the round's transcript artifact exists, requeued when attempts remain,
error otherwise, with the matching round updates applied in job order; the
worker start runs recovery exactly once, before the polling loop emits any
claim, and a second start performs nothing. -/
theorem recovery_correct :
    (∀ (done : String → Bool) (now : Nat) (q : QueueState) (rounds : Rounds),
      (recoverQueue done now q rounds).1.jobs = q.jobs.map (recoverJob done now))
    ∧ (∀ (done : String → Bool) (now : Nat) (j : TranscriptionJob),
        j.status = JobStatus.processing →
        (done j.roundId = true →
          recoverJob done now j =
            { j with status := JobStatus.completed, updatedAt := now })
        ∧ (done j.roundId = false → j.attempts < MAX_ATTEMPTS →
          recoverJob done now j =
            { j with status := JobStatus.queued, updatedAt := now })
        ∧ (done j.roundId = false → MAX_ATTEMPTS ≤ j.attempts →
          recoverJob done now j =
            { j with status := JobStatus.error, updatedAt := now }))
    ∧ (∀ (done : String → Bool) (now : Nat) (j : TranscriptionJob),
        j.status ≠ JobStatus.processing → recoverJob done now j = j)
    ∧ (∀ (done : String → Bool) (now : Nat) (q : QueueState) (rounds : Rounds),
        (recoverQueue done now q rounds).2 =
          (recoverRoundUpdates done q.jobs).foldl (fun r p => setRound r p.1 p.2) rounds)
    ∧ (∀ (done : String → Bool) (now n : Nat) (q : QueueState) (rounds : Rounds),
        (startTranscriptionWorker true done now n q rounds).2.2.2 = [])
    ∧ (∀ (done : String → Bool) (now n : Nat) (q : QueueState) (rounds : Rounds),
        (startTranscriptionWorker false done now n q rounds).2.2.2 =
          WorkerEvent.recovered ::
            (workerLoop now n (recoverQueue done now q rounds).1).2 ∧
        WorkerEvent.recovered ∉
          (workerLoop now n (recoverQueue done now q rounds).1).2) := by
  have hloop : ∀ (now n : Nat) (q : QueueState),
      WorkerEvent.recovered ∉ (workerLoop now n q).2 := by
    intro now n
    induction n with
    | zero => intro q; simp [workerLoop]
    | succ m ih =>
      intro q
      simp only [workerLoop]
      rcases hcl : claimNextJob now q with ⟨o, q'⟩
      cases o <;> simp [hcl] <;> exact ih q'
  refine ⟨?_, ?_, ?_, ?_, ?_, ?_⟩
  · intro done now q rounds
    simp [recoverQueue, recoverLoop_jobs]
  · intro done now j hp
    refine ⟨?_, ?_, ?_⟩
    · intro hd
      simp [recoverJob, hp, hd]
    · intro hd ha
      simp [recoverJob, hp, hd, ha]
    · intro hd ha
      simp [recoverJob, hp, hd, Nat.not_lt.mpr ha]
  · intro done now j hp
    simp [recoverJob, hp]
  · intro done now q rounds
    simp [recoverQueue, recoverLoop_rounds]
  · intro done now n q rounds
    simp [startTranscriptionWorker]
  · intro done now n q rounds
    exact ⟨rfl, hloop now n (recoverQueue done now q rounds).1⟩

/-- Witness for C6 at a concrete `processing` job with one attempt: with the
artifact present it completes, with the artifact absent it requeues. -/
theorem c6_witness :
    recoverJob (fun _ => true) 5
        { id := "j1", roundId := "r", audioPath := "/a", source := Source.recording,
          status := JobStatus.processing, attempts := 1, createdAt := 0,
          updatedAt := 0, lastError := none } =
      { id := "j1", roundId := "r", audioPath := "/a", source := Source.recording,
        status := JobStatus.completed, attempts := 1, createdAt := 0,
        updatedAt := 5, lastError := none } ∧
    recoverJob (fun _ => false) 5
        { id := "j1", roundId := "r", audioPath := "/a", source := Source.recording,
          status := JobStatus.processing, attempts := 1, createdAt := 0,
          updatedAt := 0, lastError := none } =
      { id := "j1", roundId := "r", audioPath := "/a", source := Source.recording,
        status := JobStatus.queued, attempts := 1, createdAt := 0,
        updatedAt := 5, lastError := none } := by
  constructor
  · exact (recovery_correct.2.1 (fun _ => true) 5 _ rfl).1 rfl
  · exact (recovery_correct.2.1 (fun _ => false) 5 _ rfl).2.1 rfl (by decide)

/-- Claim C7: `claimNextJob` returns nothing exactly when no job is queued
with attempts below the cap (leaving the document unchanged); otherwise it
transforms the first eligible job to processing with one more attempt; and a
job whose attempts have reached the cap is never returned by a claim after
any sequence of queue operations that does not reuse its id. -/
theorem claimNext_cap_correct :
    (∀ (now : Nat) (q : QueueState),
      ((claimNextJob now q).1 = none ↔
        ∀ j ∈ q.jobs, ¬(j.status = JobStatus.queued ∧ j.attempts < MAX_ATTEMPTS)))
    ∧ (∀ (now : Nat) (q : QueueState),
        (claimNextJob now q).1 = none → (claimNextJob now q).2 = q)
    ∧ (∀ (now : Nat) (q : QueueState) (j' : TranscriptionJob),
        (claimNextJob now q).1 = some j' →
        ∃ pre j post, q.jobs = pre ++ j :: post ∧
          (∀ k ∈ pre, ¬(k.status = JobStatus.queued ∧ k.attempts < MAX_ATTEMPTS)) ∧
          j.status = JobStatus.queued ∧ j.attempts < MAX_ATTEMPTS ∧
          j' = claimedJob now j ∧
          (claimNextJob now q).2.jobs = pre ++ j' :: post)
    ∧ (∀ (q : QueueState) (ops : List QueueOp) (jid : String) (now : Nat),
        (∀ j ∈ q.jobs, j.id = jid → MAX_ATTEMPTS ≤ j.attempts) →
        (∀ op ∈ ops, opNewId op ≠ some jid) →
        ∀ j', (claimNextJob now (applyOps ops q)).1 = some j' → j'.id ≠ jid) := by
  refine ⟨?_, ?_, ?_, ?_⟩
  · intro now q
    exact claimAux_none now q.jobs
  · intro now q h
    rcases q with ⟨jobs⟩
    simp only [claimNextJob] at h ⊢
    rw [claimAux_none_eq now jobs h]
  · intro now q j' h
    exact claimAux_some now q.jobs j' h
  · intro q ops jid now hq hfresh j' hcl hid
    obtain ⟨pre, j, post, h1, _, _, h4, h5, _⟩ :=
      claimAux_some now (applyOps ops q).jobs j' hcl
    have hj : j ∈ (applyOps ops q).jobs := by
      rw [h1]
      exact List.mem_append_right pre (List.mem_cons_self j post)
    have hjid : j.id = jid := by
      rw [← hid, h5]
      rfl
    have := capped_ops jid ops q hq hfresh j hj hjid
    omega

/-- Witness for C7: in a queue holding a capped job `a` and a fresh job `b`,
the claim picks `b`, and the theorem rules out `a`. -/
theorem c7_witness :
    (claimNextJob 5 (applyOps []
        { jobs := [mkJob "a" "r1" JobStatus.queued 3,
                   mkJob "b" "r2" JobStatus.queued 0] })).1 =
      some (claimedJob 5 (mkJob "b" "r2" JobStatus.queued 0)) ∧
    (claimedJob 5 (mkJob "b" "r2" JobStatus.queued 0)).id ≠ "a" := by
  constructor
  · decide
  · exact claimNext_cap_correct.2.2.2
      { jobs := [mkJob "a" "r1" JobStatus.queued 3,
                 mkJob "b" "r2" JobStatus.queued 0] }
      [] "a" 5 (by decide) (by simp) _ (by decide)

/-- Claim C8: an existing lock is reclaimed exactly when its recorded age
strictly exceeds the 10-minute TTL; a younger lock is left in place and the
acquisition fails; and a persistently live lock makes the fixed-delay,
20-attempt retry loop end with the timeout error. -/
theorem lock_ttl_correct :
    (∀ (now s : Nat), LOCK_TTL_MS < now - s →
      acquireLock now (some s) = (true, some now))
    ∧ (∀ (now s : Nat), now - s ≤ LOCK_TTL_MS →
      acquireLock now (some s) = (false, some s))
    ∧ (∀ (lockAt : Nat → Option Nat) (t0 : Nat),
        (∀ i, i < 20 → ∃ s, lockAt i = some s ∧ (t0 + i * 100) - s ≤ LOCK_TTL_MS) →
        withLock lockAt t0 = Except.error "Queue lock timeout.") := by
  refine ⟨?_, ?_, ?_⟩
  · intro now s h
    simp [acquireLock, h]
  · intro now s h
    simp [acquireLock, Nat.not_lt.mpr h]
  · intro lockAt t0 h
    have hnone : (List.range 20).find?
        (fun i => (acquireLock (t0 + i * 100) (lockAt i)).1) = none := by
      rw [List.find?_eq_none]
      intro i hi
      obtain ⟨s, hs, hage⟩ := h i (List.mem_range.mp hi)
      rw [hs]
      simp [acquireLock, Nat.not_lt.mpr hage]
    simp [withLock, hnone]

/-- Witness for C8: a lock aged beyond the TTL is reclaimed, a fresh one is
not, and a permanently fresh lock times the loop out. -/
theorem c8_witness :
    acquireLock 700000 (some 0) = (true, some 700000) ∧
    acquireLock 100 (some 0) = (false, some 0) ∧
    withLock (fun _ => some 0) 0 = Except.error "Queue lock timeout." := by
  refine ⟨?_, ?_, ?_⟩
  · exact lock_ttl_correct.1 700000 0 (by decide)
  · exact lock_ttl_correct.2.1 100 0 (by decide)
  · apply lock_ttl_correct.2.2 (fun _ => some 0) 0
    intro i hi
    exact ⟨0, rfl, by simp [LOCK_TTL_MS]; omega⟩

/-- Claim C9: every queue operation keeps every job's attempts between 0 and
the cap: enqueue returns an existing job or creates one with zero attempts,
a claim increments attempts only on a job strictly below the cap, and
reconciliation never changes attempts. -/
theorem attempts_bounded_correct :
    (∀ (op : QueueOp) (q : QueueState), attemptsBounded q →
      attemptsBounded (applyOp op q))
    ∧ (∀ (rid apath : String) (src : Source) (newId : String) (now : Nat)
        (q : QueueState),
        (enqueueTranscriptionJob rid apath src newId now q).1 ∈ q.jobs ∨
        (enqueueTranscriptionJob rid apath src newId now q).1.attempts = 0)
    ∧ (∀ (now : Nat) (q : QueueState) (j' : TranscriptionJob),
        (claimNextJob now q).1 = some j' →
        ∃ j ∈ q.jobs, j.status = JobStatus.queued ∧ j.attempts < MAX_ATTEMPTS ∧
          j'.attempts = j.attempts + 1)
    ∧ (∀ (done : String → Bool) (now : Nat) (j : TranscriptionJob),
        (recoverJob done now j).attempts = j.attempts) := by
  refine ⟨?_, ?_, ?_, ?_⟩
  · intro op q hb
    cases op with
    | enqueueOp rid apath src newId now =>
      intro j hj
      simp only [applyOp, enqueueTranscriptionJob] at hj
      match hfind : q.jobs.find? (fun j => decide (j.roundId = rid ∧ jobActive j)) with
      | some e =>
        rw [hfind] at hj
        exact hb j hj
      | none =>
        rw [hfind] at hj
        simp only [List.mem_append, List.mem_singleton] at hj
        rcases hj with hj | hj
        · exact hb j hj
        · simp [hj, newJobOf, MAX_ATTEMPTS]
    | claimOp now =>
      intro j hj
      rcases mem_claimAux now q.jobs j hj with h | ⟨jj, hjj, _, h2, h3⟩
      · exact hb j h
      · subst h3
        simp only [claimedJob]
        omega
    | updateOp jobId u now =>
      intro j hj
      rcases mem_updateAux jobId u now q.jobs j hj with h | ⟨jj, hjj, h1⟩
      · exact hb j h
      · subst h1
        rw [(applyUpdate_preserves u now jj).1]
        exact hb jj hjj
    | recoverOp done now =>
      intro j hj
      simp only [applyOp, recoverQueue, recoverLoop_jobs, List.mem_map] at hj
      obtain ⟨jj, hjj, h1⟩ := hj
      subst h1
      rw [(recoverJob_preserves done now jj).1]
      exact hb jj hjj
  · intro rid apath src newId now q
    match hfind : q.jobs.find? (fun j => decide (j.roundId = rid ∧ jobActive j)) with
    | some e =>
      simp only [enqueueTranscriptionJob, hfind]
      exact Or.inl (List.mem_of_find?_eq_some hfind)
    | none =>
      simp only [enqueueTranscriptionJob, hfind]
      exact Or.inr rfl
  · intro now q j' h
    obtain ⟨pre, j, post, h1, _, h3, h4, h5, _⟩ := claimAux_some now q.jobs j' h
    refine ⟨j, ?_, h3, h4, ?_⟩
    · rw [h1]
      exact List.mem_append_right pre (List.mem_cons_self j post)
    · rw [h5]
      rfl
  · intro done now j
    exact (recoverJob_preserves done now j).1

/-- Witness for C9: claiming from a one-job queue with two attempts keeps
every attempts count within the cap. -/
theorem c9_witness :
    attemptsBounded (applyOp (QueueOp.claimOp 5)
      { jobs := [mkJob "a" "r" JobStatus.queued 2] }) :=
  attempts_bounded_correct.1 (QueueOp.claimOp 5)
    { jobs := [mkJob "a" "r" JobStatus.queued 2] }
    (by intro j hj; simp at hj; simp [hj, mkJob, MAX_ATTEMPTS])

end VoskModular
